import Mathlib

/-!
Shallow embedding of the extraction/normalization core of the Yamanote
delay scraper (`src/yamanote_scraper.py`), at the granularity of cell
texts: the HTML fetch and the BeautifulSoup tree walk are external
collaborators, so a table is modelled as a list of rows, each row the
list of its cells' stripped texts, exactly the strings the Python code
manipulates after `get_text(strip=True)`.

Strings are Lean `String`s processed as `List Char`.  Python's `\d`
is modelled as the ASCII digits `0`-`9` (the inputs of interest contain
only ASCII digits); `str.strip()`'s whitespace set is modelled by
`isPySpace` below.  `datetime.now()` is an effect, so the functions that
consult it take the current year and month as explicit parameters.
-/

namespace Yamanote

/-- A calendar date, the result of parsing a `YYYY-MM-DD` string. -/
structure Date where
  year : Nat
  month : Nat
  day : Nat
deriving DecidableEq, Repr

/-- Python `str.strip()` whitespace characters (ASCII whitespace plus the
no-break and ideographic spaces). -/
def isPySpace (c : Char) : Bool :=
  c == ' ' || c == '\t' || c == '\n' || c == '\r' ||
  c == '\x0b' || c == '\x0c' || c == ' ' || c == '　'

/-- `needle` occurs at the start of `haystack` (Python `startswith`). -/
def startsWithSub : List Char → List Char → Bool
  | [], _ => true
  | _ :: _, [] => false
  | a :: as, b :: bs => a == b && startsWithSub as bs

/-- `needle in haystack` for Python strings: `needle` occurs as a
contiguous substring of `haystack`. -/
def containsSub (needle : List Char) : List Char → Bool
  | [] => needle.isEmpty
  | c :: t => startsWithSub needle (c :: t) || containsSub needle t

/-- `int()` on a string of ASCII digits. -/
def digitsToNat (ds : List Char) : Nat :=
  ds.foldl (fun acc c => acc * 10 + (c.toNat - '0'.toNat)) 0

/-- `re.search(r'(\d+)分', s)`: scan left to right; at the first position
starting a maximal digit run that is immediately followed by `分`, return
the integer value of that run.  (Backtracking inside a digit run always
fails, because every proper suffix of the run ends at the same non-digit
character, so this scan is exactly Python's leftmost-match search.) -/
def searchNumBeforeMin : List Char → Option Nat
  | [] => none
  | c :: rest =>
    if c.isDigit then
      if ((c :: rest).dropWhile Char.isDigit).head? = some '分' then
        some (digitsToNat ((c :: rest).takeWhile Char.isDigit))
      else searchNumBeforeMin rest
    else searchNumBeforeMin rest

/-- `YamanoteDelayScraper._extract_delay_minutes`: the strict priority
chain turning a cell's free text into a minute count. -/
def extract_delay_minutes (s : String) : Nat :=
  if s.data.isEmpty || s == "-" || s.data.all isPySpace then 0
  else if containsSub "61分以上".data s.data || containsSub "60分以上".data s.data then 61
  else match searchNumBeforeMin s.data with
    | some n => n
    | none => if containsSub "遅延".data s.data then 5 else 0

/-- The `(delay_minutes, has_delay)` pair computed for each cell by
`get_delay_history_data` (the dict built at lines 94-100 sets
`has_delay` to `delay_minutes > 0`). -/
def interpretDelayCell (s : String) : Nat × Bool :=
  (extract_delay_minutes s, decide (extract_delay_minutes s > 0))

/-- Match `(\d{1,2})日` at the head of the input, with the regex engine's
greedy-then-backtrack order: two digits followed by `日`, else one digit
followed by `日`. -/
def matchDayAt : List Char → Option Nat
  | x :: y :: rest =>
    if x.isDigit then
      if y.isDigit then
        if rest.head? = some '日' then
          some ((x.toNat - '0'.toNat) * 10 + (y.toNat - '0'.toNat))
        else none
      else if y = '日' then some (x.toNat - '0'.toNat) else none
    else none
  | _ => none

/-- Match `(\d{1,2})月(\d{1,2})日` at the head of the input. -/
def matchMonthDayAt : List Char → Option (Nat × Nat)
  | a :: b :: rest =>
    if a.isDigit then
      if b.isDigit then
        if rest.head? = some '月' then
          (matchDayAt rest.tail).map
            (fun d => ((a.toNat - '0'.toNat) * 10 + (b.toNat - '0'.toNat), d))
        else none
      else if b = '月' then (matchDayAt rest).map (fun d => (a.toNat - '0'.toNat, d))
      else none
    else none
  | _ => none

/-- `re.search(r'(\d{1,2})月(\d{1,2})日', s)`: leftmost match. -/
def searchMonthDay : List Char → Option (Nat × Nat)
  | [] => none
  | c :: rest =>
    match matchMonthDayAt (c :: rest) with
    | some r => some r
    | none => searchMonthDay rest

/-- Zero-pad a number to at least two digits (Python `f"{n:02d}"`). -/
def pad2 (n : Nat) : String :=
  if n < 10 then "0" ++ toString n else toString n

/-- Zero-pad a number to at least four digits (Python `f"{n:04d}"`). -/
def pad4 (n : Nat) : String :=
  if n < 10 then "000" ++ toString n
  else if n < 100 then "00" ++ toString n
  else if n < 1000 then "0" ++ toString n
  else toString n

/-- The f-string `f"{year:04d}-{month:02d}-{day:02d}"`. -/
def formatYMD (y m d : Nat) : String :=
  pad4 y ++ "-" ++ pad2 m ++ "-" ++ pad2 d

/-- `YamanoteDelayScraper._parse_date`: find the month-day pattern, infer
the year from the current month (a parsed month in the future relative to
`now` is taken to belong to the previous year), and format the result.
Returns `none` when the pattern is absent. -/
def parse_date (currentYear currentMonth : Nat) (s : String) : Option String :=
  (searchMonthDay s.data).map fun md =>
    formatYMD (if md.1 > currentMonth then currentYear - 1 else currentYear) md.1 md.2

/-- One entry of the list returned by `get_delay_history_data`: the dict
built at lines 94-100 (before the weekday pass of `scrape_delay_history`
adds the two weekday keys). -/
structure RawRecord where
  date : String
  time_slot : String
  delay_info : String
  delay_minutes : Nat
  has_delay : Bool
deriving DecidableEq, Repr

/-- A row of a table: the stripped texts of its `th`/`td` cells, in
document order (`row.find_all(['th','td'])`). -/
abbrev Row := List String

/-- A table: its `tr` rows in document order. -/
abbrev Table := List Row

/-- The header-row test at lines 50-54: the concatenation of the row's
cell texts contains both the first-train marker `始発` and the last-train
marker `終電`. -/
def isHeaderRow (row : Row) : Bool :=
  containsSub "始発".data (String.join row).data &&
  containsSub "終電".data (String.join row).data

/-- The time-slot filter at lines 62-65: a header cell (after the first,
date-column cell) counts as a time slot iff its text is non-empty and
contains `時`, `始発` or `終電`. -/
def timeSlotsOf (header : Row) : List String :=
  (header.drop 1).filter fun ts =>
    !ts.isEmpty &&
      (containsSub "時".data ts.data || containsSub "始発".data ts.data ||
       containsSub "終電".data ts.data)

/-- The body of the data-row loop at lines 68-100: rows with fewer than
two cells are skipped, a row whose first cell does not yield a date is
skipped whole (`if not parsed_date: continue` — Python falsiness also
covers an empty string), and otherwise each cell positionally aligned
with a time slot yields one record. -/
def processRow (currentYear currentMonth : Nat) (time_slots : List String)
    (cells : Row) : List RawRecord :=
  if cells.length < 2 then []
  else
    match cells with
    | [] => []
    | dateCell :: _ =>
      match parse_date currentYear currentMonth dateCell with
      | none => []
      | some parsed =>
        if parsed.isEmpty then []
        else
          time_slots.enum.filterMap fun p =>
            if p.1 + 1 < cells.length then
              let delay_info := cells.getD (p.1 + 1) ""
              let pair := interpretDelayCell delay_info
              some { date := parsed, time_slot := p.2, delay_info := delay_info,
                     delay_minutes := pair.1, has_delay := pair.2 }
            else none

/-- The per-table part of `get_delay_history_data` (lines 44-100): find
the first header row; without one the table contributes nothing; with
one, every row equal to the header row is skipped (BeautifulSoup tag
equality is structural, modelled here as equality of cell-text lists)
and every other row is processed against the extracted time slots. -/
def processTable (currentYear currentMonth : Nat) (rows : Table) : List RawRecord :=
  match rows.find? isHeaderRow with
  | none => []
  | some header =>
    (rows.filter (fun r => r ≠ header)).flatMap
      (processRow currentYear currentMonth (timeSlotsOf header))

/-- `YamanoteDelayScraper.get_delay_history_data`, from the parsed table
structure on: records are appended in table order, row order, slot
order. -/
def get_delay_history_data (currentYear currentMonth : Nat)
    (tables : List Table) : List RawRecord :=
  tables.flatMap (processTable currentYear currentMonth)

/-- Whether `y` is a Gregorian leap year. -/
def isLeap (y : Nat) : Bool :=
  (y % 4 == 0 && y % 100 != 0) || y % 400 == 0

/-- Days in month `m` of year `y` (for `m` between 1 and 12). -/
def daysInMonth (y m : Nat) : Nat :=
  [31, if isLeap y then 29 else 28, 31, 30, 31, 30,
   31, 31, 30, 31, 30, 31].getD (m - 1) 0

/-- Julian day number of a Gregorian date (valid for `year ≥ 1`,
`1 ≤ month ≤ 12`). -/
def jdn (dt : Date) : Nat :=
  let a := (14 - dt.month) / 12
  let y := dt.year + 4800 - a
  let m := dt.month + 12 * a - 3
  dt.day + (153 * m + 2) / 5 + 365 * y + y / 4 - y / 100 + y / 400 - 32045

/-- Python's `datetime.weekday()`: Monday = 0 … Sunday = 6. -/
def pyWeekday (dt : Date) : Nat :=
  jdn dt % 7

/-- `datetime.strptime(s, '%Y-%m-%d')` as it applies to the strings this
pipeline produces (`f"{y:04d}-{m:02d}-{d:02d}"`): `%Y` is exactly four
digits, `%m` as a two-digit field must be `01`-`12`, `%d` as a two-digit
field must be `01`-`31`, the whole string must be consumed, and
constructing the `datetime` requires `year ≥ 1` and a calendar-valid
day; any failure raises, modelled as `none`. -/
def parseISO (s : String) : Option Date :=
  match s.data with
  | [y1, y2, y3, y4, '-', m1, m2, '-', d1, d2] =>
    if y1.isDigit && y2.isDigit && y3.isDigit && y4.isDigit then
      let y := digitsToNat [y1, y2, y3, y4]
      let m := digitsToNat [m1, m2]
      let d := digitsToNat [d1, d2]
      let monthOk := (m1 == '0' && '1' ≤ m2 && m2 ≤ '9') ||
                     (m1 == '1' && '0' ≤ m2 && m2 ≤ '2')
      let dayOk := (d1 == '0' && '1' ≤ d2 && d2 ≤ '9') ||
                   ((d1 == '1' || d1 == '2') && d2.isDigit) ||
                   (d1 == '3' && ('0' ≤ d2 && d2 ≤ '1'))
      if monthOk && dayOk && 1 ≤ y && d ≤ daysInMonth y m then
        some ⟨y, m, d⟩
      else none
    else none
  | _ => none

/-- The fixed weekday lookup of `_get_japanese_weekday` (lines 197-200),
indexed by `datetime.weekday()` (Monday-first). -/
def get_japanese_weekday (weekday : Nat) : String :=
  ["月", "火", "水", "木", "金", "土", "日"].getD weekday ""

/-- `strftime('%A')`, indexed by `datetime.weekday()`. -/
def englishWeekdayName (weekday : Nat) : String :=
  ["Monday", "Tuesday", "Wednesday", "Thursday", "Friday", "Saturday",
   "Sunday"].getD weekday ""

/-- A record after `scrape_delay_history` has added the weekday keys. -/
structure Record extends RawRecord where
  weekday : String
  weekday_jp : String
deriving DecidableEq, Repr

/-- The weekday pass of `scrape_delay_history` (lines 170-177): re-parse
the record's date string with `strptime`; on success derive both weekday
labels from it, on failure fall back to `'Unknown'` / `'不明'`. -/
def addWeekday (r : RawRecord) : Record :=
  match parseISO r.date with
  | some dt =>
    { r with weekday := englishWeekdayName (pyWeekday dt),
             weekday_jp := get_japanese_weekday (pyWeekday dt) }
  | none => { r with weekday := "Unknown", weekday_jp := "不明" }

/-- `YamanoteDelayScraper.scrape_delay_history`, from the parsed table
structure on: the assembled records with weekday information added. -/
def scrape_delay_history (currentYear currentMonth : Nat)
    (tables : List Table) : List Record :=
  (get_delay_history_data currentYear currentMonth tables).map addWeekday

/-! ### Helper lemmas about the character-level scanners -/

theorem mem_of_startsWithSub {c : Char} :
    ∀ {n h : List Char}, startsWithSub n h = true → c ∈ n → c ∈ h := by
  intro n
  induction n with
  | nil => intro h _ hc; cases hc
  | cons a as ih =>
    intro h hs hc
    cases h with
    | nil => simp [startsWithSub] at hs
    | cons b bs =>
      simp only [startsWithSub, Bool.and_eq_true, beq_iff_eq] at hs
      rcases List.mem_cons.mp hc with rfl | hc2
      · exact hs.1 ▸ List.mem_cons_self _ _
      · exact List.mem_cons_of_mem _ (ih hs.2 hc2)

theorem mem_of_containsSub {c : Char} :
    ∀ {n h : List Char}, containsSub n h = true → c ∈ n → c ∈ h := by
  intro n h
  induction h with
  | nil =>
    intro hs hc
    simp only [containsSub, List.isEmpty_iff] at hs
    subst hs; cases hc
  | cons b bs ih =>
    intro hs hc
    simp only [containsSub, Bool.or_eq_true] at hs
    rcases hs with hs | hs
    · exact mem_of_startsWithSub hs hc
    · exact List.mem_cons_of_mem _ (ih hs hc)

theorem isDigit_eq_false_of_isPySpace {c : Char} (h : isPySpace c = true) :
    c.isDigit = false := by
  unfold isPySpace at h
  simp only [Bool.or_eq_true, beq_iff_eq] at h
  rcases h with ((((((rfl | rfl) | rfl) | rfl) | rfl) | rfl) | rfl) | rfl <;> decide

theorem dropWhile_append_of_all {α : Type} (p : α → Bool) :
    ∀ (l r : List α), (∀ x ∈ l, p x = true) →
      List.dropWhile p (l ++ r) = List.dropWhile p r := by
  intro l r hall
  induction l with
  | nil => rfl
  | cons a t ih =>
    have ha : p a = true := hall a (List.mem_cons_self _ _)
    simp only [List.cons_append, List.dropWhile_cons, ha, if_true]
    exact ih fun x hx => hall x (List.mem_cons_of_mem _ hx)

theorem takeWhile_append_of_all {α : Type} (p : α → Bool) :
    ∀ (l r : List α), (∀ x ∈ l, p x = true) →
      List.takeWhile p (l ++ r) = l ++ List.takeWhile p r := by
  intro l r hall
  induction l with
  | nil => rfl
  | cons a t ih =>
    have ha : p a = true := hall a (List.mem_cons_self _ _)
    simp only [List.cons_append, List.takeWhile_cons, ha, if_true]
    exact congrArg (a :: ·) (ih fun x hx => hall x (List.mem_cons_of_mem _ hx))

theorem dropWhile_append_of_ne_nil {α : Type} (p : α → Bool) :
    ∀ (l r : List α), List.dropWhile p l ≠ [] →
      List.dropWhile p (l ++ r) = List.dropWhile p l ++ r := by
  intro l r hne
  induction l with
  | nil => exact absurd rfl hne
  | cons a t ih =>
    by_cases ha : p a = true
    · have h1 : List.dropWhile p (a :: t) = List.dropWhile p t := by
        simp [List.dropWhile_cons, ha]
      have h2 : List.dropWhile p (a :: (t ++ r)) = List.dropWhile p (t ++ r) := by
        simp [List.dropWhile_cons, ha]
      rw [h1] at hne
      rw [List.cons_append, h2, h1]
      exact ih hne
    · have ha2 : p a = false := by revert ha; cases p a <;> simp
      simp only [List.cons_append, List.dropWhile_cons, ha2, Bool.false_eq_true,
        if_false]

/-- The scanner modelling `re.search(r'(\d+)分', ·)` finds exactly the
leftmost maximal digit run that is followed by `分`: whatever precedes it
(no earlier match, and no digit directly adjacent on the left) does not
change the result. -/
theorem searchNumBeforeMin_append {ds post : List Char}
    (hne : ds ≠ []) (hdig : ∀ c ∈ ds, c.isDigit = true) :
    ∀ pre : List Char, searchNumBeforeMin pre = none →
      (∀ c, pre.getLast? = some c → c.isDigit = false) →
      searchNumBeforeMin (pre ++ (ds ++ '分' :: post)) = some (digitsToNat ds) := by
  intro pre
  induction pre with
  | nil =>
    intro _ _
    obtain ⟨d, ds2, rfl⟩ := List.exists_cons_of_ne_nil hne
    have hd : d.isDigit = true := hdig d (List.mem_cons_self _ _)
    have hdrop : List.dropWhile Char.isDigit ((d :: ds2) ++ '分' :: post) =
        '分' :: post := by
      rw [dropWhile_append_of_all _ _ _ hdig]
      simp [List.dropWhile_cons]
    have htake : List.takeWhile Char.isDigit ((d :: ds2) ++ '分' :: post) =
        d :: ds2 := by
      rw [takeWhile_append_of_all _ _ _ hdig]
      simp [List.takeWhile_cons]
    simp only [List.nil_append]
    rw [show (d :: ds2) ++ '分' :: post = d :: (ds2 ++ '分' :: post) by simp]
    rw [searchNumBeforeMin]
    rw [show d :: (ds2 ++ '分' :: post) = (d :: ds2) ++ '分' :: post by simp] at *
    simp only [hd, if_true, hdrop, htake, List.head?_cons, if_pos rfl]
  | cons c pre ih =>
    intro hpre hlast
    by_cases hc : c.isDigit = true
    · -- the scan is inside a digit run that `hlast` says cannot reach the
      -- end of `pre`, and `hpre` says is not followed by `分` inside `pre`
      have hpre_ne : pre ≠ [] := by
        intro hnil; subst hnil
        exact absurd hc (by simp [hlast c rfl])
      have hlast2 : ∀ x, pre.getLast? = some x → x.isDigit = false := by
        intro x hx
        apply hlast
        obtain ⟨a, t, rfl⟩ := List.exists_cons_of_ne_nil hpre_ne
        rw [List.getLast?_cons_cons]; exact hx
      have hdrop_ne : List.dropWhile Char.isDigit (c :: pre) ≠ [] := by
        intro hnil
        rw [List.dropWhile_eq_nil_iff] at hnil
        have hsome : (c :: pre).getLast?.isSome := by
          rw [List.getLast?_isSome]; exact List.cons_ne_nil _ _
        obtain ⟨x, hx⟩ := Option.isSome_iff_exists.mp hsome
        have hxmem : x ∈ c :: pre := List.mem_of_mem_getLast? (by simp [hx])
        have : x.isDigit = false := by
          cases pre with
          | nil => exact absurd rfl hpre_ne
          | cons a t => exact hlast2 x (by rw [List.getLast?_cons_cons] at hx; exact hx)
        exact absurd (hnil x hxmem) (by simp [this])
      -- `hpre` forces the head of the dropped part to differ from `分`,
      -- and forces the recursive scan of `pre` to fail
      rw [searchNumBeforeMin, if_pos hc] at hpre
      by_cases hh : (List.dropWhile Char.isDigit (c :: pre)).head? = some '分'
      · rw [if_pos hh] at hpre; cases hpre
      · rw [if_neg hh] at hpre
        obtain ⟨e, tl, hdd⟩ := List.exists_cons_of_ne_nil hdrop_ne
        have he : e ≠ '分' := by
          intro rfl2; apply hh; rw [hdd]; simp [rfl2]
        rw [show (c :: pre) ++ (ds ++ '分' :: post) =
              c :: (pre ++ (ds ++ '分' :: post)) by simp]
        rw [searchNumBeforeMin, if_pos hc]
        have hdrop2 : List.dropWhile Char.isDigit
            (c :: (pre ++ (ds ++ '分' :: post))) = e :: (tl ++ (ds ++ '分' :: post)) := by
          rw [show c :: (pre ++ (ds ++ '分' :: post)) =
                (c :: pre) ++ (ds ++ '分' :: post) by simp]
          rw [dropWhile_append_of_ne_nil _ _ _ hdrop_ne, hdd]
          simp
        rw [hdrop2]
        rw [if_neg (by simp [he])]
        exact ih hpre hlast2
    · have hc2 : c.isDigit = false := by revert hc; cases c.isDigit <;> simp
      rw [searchNumBeforeMin, hc2] at hpre
      simp only [Bool.false_eq_true, if_false] at hpre
      have hlast2 : ∀ x, pre.getLast? = some x → x.isDigit = false := by
        intro x hx
        exact hlast x (List.mem_getLast?_cons (by simp [hx]))
      rw [show (c :: pre) ++ (ds ++ '分' :: post) =
            c :: (pre ++ (ds ++ '分' :: post)) by simp]
      rw [searchNumBeforeMin, hc2]
      simp only [Bool.false_eq_true, if_false]
      exact ih hpre hlast2

theorem mk_data (l : List Char) : (String.mk l).data = l := rfl

/-- The interpreter on a text that decomposes as junk, a maximal digit
run, the minute unit, and a tail: provided the junk holds no earlier
match and no `61分以上`/`60分以上` marker occurs anywhere, the result is
the value of that leftmost digit run. -/
theorem extract_delay_minutes_of_leftmost {pre ds post : List Char}
    (hne : ds ≠ []) (hdig : ∀ c ∈ ds, c.isDigit = true)
    (hpre : searchNumBeforeMin pre = none)
    (hlast : ∀ c, pre.getLast? = some c → c.isDigit = false)
    (h61 : containsSub "61分以上".data (pre ++ (ds ++ '分' :: post)) = false)
    (h60 : containsSub "60分以上".data (pre ++ (ds ++ '分' :: post)) = false) :
    extract_delay_minutes (String.mk (pre ++ (ds ++ '分' :: post))) = digitsToNat ds := by
  have hdm : ∃ c ∈ pre ++ (ds ++ '分' :: post), c.isDigit = true := by
    obtain ⟨d, ds2, rfl⟩ := List.exists_cons_of_ne_nil hne
    exact ⟨d, by simp, hdig d (List.mem_cons_self _ _)⟩
  obtain ⟨d, hdm, hd⟩ := hdm
  have hb1 : (pre ++ (ds ++ '分' :: post)).isEmpty = false := by
    cases hx : pre ++ (ds ++ '分' :: post) with
    | nil => rw [hx] at hdm; cases hdm
    | cons a t => rfl
  have hb2 : (String.mk (pre ++ (ds ++ '分' :: post)) == "-") = false := by
    rw [beq_eq_false_iff_ne]
    intro hEq
    have hl : pre ++ (ds ++ '分' :: post) = ['-'] := congrArg String.data hEq
    rw [hl] at hdm
    simp at hdm
    subst hdm
    cases hd
  have hb3 : (pre ++ (ds ++ '分' :: post)).all isPySpace = false := by
    by_contra hno
    have hall : (pre ++ (ds ++ '分' :: post)).all isPySpace = true := by
      revert hno; cases (pre ++ (ds ++ '分' :: post)).all isPySpace <;> simp
    have := List.all_eq_true.mp hall d hdm
    rw [isDigit_eq_false_of_isPySpace this] at hd
    cases hd
  simp only [extract_delay_minutes, mk_data, hb1, hb2, hb3, h61, h60,
    Bool.or_false, Bool.false_or, Bool.false_eq_true, if_false]
  rw [searchNumBeforeMin_append hne hdig pre hpre hlast]

theorem digit_toNat_le {c : Char} (h : c.isDigit = true) :
    c.toNat - '0'.toNat ≤ 9 := by
  unfold Char.isDigit at h
  simp only [Bool.and_eq_true, decide_eq_true_eq] at h
  have h1 : 48 ≤ c.toNat := h.1
  have h2 : c.toNat ≤ 57 := h.2
  have h0 : ('0' : Char).toNat = 48 := rfl
  omega

theorem matchDayAt_le {l : List Char} {d : Nat} (h : matchDayAt l = some d) :
    d ≤ 99 := by
  match l with
  | [] => cases h
  | [x] => cases h
  | x :: y :: rest =>
    rw [matchDayAt] at h
    split at h
    case isFalse hx => cases h
    case isTrue hx =>
      split at h
      case isTrue hy =>
        split at h
        case isTrue hz =>
          injection h with h2
          have h1 := digit_toNat_le hx
          have h2y := digit_toNat_le hy
          omega
        case isFalse hz => cases h
      case isFalse hy =>
        split at h
        case isTrue hz =>
          injection h with h2
          have h1 := digit_toNat_le hx
          omega
        case isFalse hz => cases h

theorem matchMonthDayAt_le {l : List Char} {m d : Nat}
    (h : matchMonthDayAt l = some (m, d)) : m ≤ 99 ∧ d ≤ 99 := by
  match l with
  | [] => cases h
  | [a] => cases h
  | a :: b :: rest =>
    rw [matchMonthDayAt] at h
    split at h
    case isFalse ha => cases h
    case isTrue ha =>
      split at h
      case isTrue hb =>
        split at h
        case isTrue hz =>
          rw [Option.map_eq_some'] at h
          obtain ⟨d0, hd0, hpair⟩ := h
          have h1 := digit_toNat_le ha
          have h2 := digit_toNat_le hb
          have h3 := matchDayAt_le hd0
          injection hpair with hm hd
          constructor <;> omega
        case isFalse hz => cases h
      case isFalse hb =>
        split at h
        case isTrue hz =>
          rw [Option.map_eq_some'] at h
          obtain ⟨d0, hd0, hpair⟩ := h
          have h1 := digit_toNat_le ha
          have h3 := matchDayAt_le hd0
          injection hpair with hm hd
          constructor <;> omega
        case isFalse hz => cases h

theorem searchMonthDay_le :
    ∀ {l : List Char} {m d : Nat}, searchMonthDay l = some (m, d) →
      m ≤ 99 ∧ d ≤ 99 := by
  intro l
  induction l with
  | nil => intro m d h; cases h
  | cons c rest ih =>
    intro m d h
    rw [searchMonthDay] at h
    cases hm : matchMonthDayAt (c :: rest) with
    | some r =>
      rw [hm] at h
      injection h with h2
      subst h2
      exact matchMonthDayAt_le hm
    | none =>
      rw [hm] at h
      exact ih h

/-! ### Helper lemmas about the assembler and the weekday pass -/

theorem has_delay_of_mem_processRow {cy cm : Nat} {slots : List String}
    {cells : Row} {r : RawRecord} (h : r ∈ processRow cy cm slots cells) :
    r.has_delay = decide (r.delay_minutes > 0) := by
  unfold processRow at h
  split at h
  · cases h
  · split at h
    · cases h
    · split at h
      · cases h
      · split at h
        · cases h
        · rw [List.mem_filterMap] at h
          obtain ⟨p, _, heq⟩ := h
          split at heq
          · injection heq with heq2
            subst heq2
            rfl
          · cases heq

theorem pyWeekday_lt (dt : Date) : pyWeekday dt < 7 :=
  Nat.mod_lt _ (by decide)

theorem get_japanese_weekday_mem {w : Nat} (h : w < 7) :
    get_japanese_weekday w ∈ ["月", "火", "水", "木", "金", "土", "日"] := by
  interval_cases w <;> decide

theorem addWeekday_date (r : RawRecord) : (addWeekday r).date = r.date := by
  unfold addWeekday
  split <;> rfl

/-! ### Claims -/

/-- C1 (counterexample): the literal cell `"0分"` — an instance of the
form `<N>分` with `N = 0`, no `以上` marker and not a placeholder — is
interpreted as `(delay_minutes = 0, has_delay = false)`, not `(0, true)`
as the claim states: `has_delay` is computed downstream of the priority
chain as `delay_minutes > 0`. -/
theorem zero_minutes_pair_counterexample :
    interpretDelayCell "0分" = (0, false) ∧ ((0, false) : Nat × Bool) ≠ (0, true) := by
  decide

/-- C1 (amended): for every input of the form `<N>分` (a non-empty ASCII
digit string followed by the minute unit), the interpreter stage yields
`delay_minutes = N` and `has_delay = (N > 0)`; in particular `N = 0`
yields `(0, false)`. -/
theorem numeric_cell_pair : ∀ ds : List Char, ds ≠ [] →
    (∀ c ∈ ds, c.isDigit = true) →
    interpretDelayCell (String.mk (ds ++ ['分'])) =
      (digitsToNat ds, decide (digitsToNat ds > 0)) := by
  intro ds hne hdig
  have hng : ∀ needle : List Char, '以' ∈ needle →
      containsSub needle (ds ++ ['分']) = false := by
    intro needle hmem
    by_contra hc
    have hc2 : containsSub needle (ds ++ ['分']) = true := by
      revert hc; cases containsSub needle (ds ++ ['分']) <;> simp
    have hyi : ('以' : Char) ∈ ds ++ ['分'] := mem_of_containsSub hc2 hmem
    rcases List.mem_append.mp hyi with h | h
    · exact absurd (hdig _ h) (by decide)
    · simp at h
  have hx : extract_delay_minutes (String.mk (ds ++ ['分'])) = digitsToNat ds :=
    @extract_delay_minutes_of_leftmost [] ds [] hne hdig rfl
      (by intro c hc; simp at hc)
      (hng "61分以上".data (by decide)) (hng "60分以上".data (by decide))
  unfold interpretDelayCell
  rw [hx]

/-- C1 witness: the amended statement at the concrete input `"10分"`. -/
theorem numeric_cell_pair_witness :
    interpretDelayCell (String.mk (['1', '0'] ++ ['分'])) = (10, true) := by
  have h := numeric_cell_pair ['1', '0'] (by decide) (by decide)
  rw [h]
  decide

/-- C2: every record emitted by the record assembler
(`get_delay_history_data`) satisfies `has_delay = (delay_minutes > 0)`. -/
theorem has_delay_iff_positive : ∀ (cy cm : Nat) (tables : List Table)
    (r : RawRecord), r ∈ get_delay_history_data cy cm tables →
    r.has_delay = decide (r.delay_minutes > 0) := by
  intro cy cm tables r h
  unfold get_delay_history_data at h
  rw [List.mem_flatMap] at h
  obtain ⟨table, _, hT⟩ := h
  unfold processTable at hT
  split at hT
  · cases hT
  · rw [List.mem_flatMap] at hT
    obtain ⟨row, _, hR⟩ := hT
    exact has_delay_of_mem_processRow hR

/-- C2 witness: the invariant instantiated on a concrete emitted record. -/
theorem has_delay_iff_positive_witness :
    (RawRecord.mk "2025-07-03" "7時〜終電" "10分" 10 true).has_delay =
      decide ((RawRecord.mk "2025-07-03" "7時〜終電" "10分" 10 true).delay_minutes > 0) :=
  has_delay_iff_positive 2025 7
    [[["日付", "始発〜7時", "7時〜終電"], ["7月3日", "-", "10分"]]]
    (RawRecord.mk "2025-07-03" "7時〜終電" "10分" 10 true) (by decide)

/-- C3 (counterexample): a record whose inferred date is not a valid
calendar date (here `2月30日`, accepted by the date normalizer) is
emitted with `weekday_jp = "不明"`, which is not one of the seven
weekday labels — refuting the claim that every emitted record carries
one of the seven labels. -/
theorem weekday_jp_unknown_counterexample :
    scrape_delay_history 2025 7 [[["日付", "始発〜終電"], ["2月30日", "10分"]]] =
      [(⟨⟨"2025-02-30", "始発〜終電", "10分", 10, true⟩,
         "Unknown", "不明"⟩ : Record)] ∧
      "不明" ∉ ["月", "火", "水", "木", "金", "土", "日"] := by
  decide

/-- C3 (amended): for every emitted record, if the record's date string
re-parses as a valid calendar date then `weekday_jp` is the fixed
Monday-first lookup of the date's weekday and is one of the seven
labels; otherwise `weekday_jp = "不明"`.  In particular 2025-07-14 maps
to `月` and 2025-07-20 maps to `日`. -/
theorem weekday_jp_characterization :
    (∀ (cy cm : Nat) (tables : List Table) (r : Record),
        r ∈ scrape_delay_history cy cm tables →
        (∃ dt, parseISO r.date = some dt ∧
            r.weekday_jp = get_japanese_weekday (pyWeekday dt) ∧
            r.weekday_jp ∈ ["月", "火", "水", "木", "金", "土", "日"]) ∨
          (parseISO r.date = none ∧ r.weekday_jp = "不明")) ∧
      get_japanese_weekday (pyWeekday ⟨2025, 7, 14⟩) = "月" ∧
      get_japanese_weekday (pyWeekday ⟨2025, 7, 20⟩) = "日" := by
  refine ⟨?_, by decide, by decide⟩
  intro cy cm tables r h
  unfold scrape_delay_history at h
  rw [List.mem_map] at h
  obtain ⟨r0, _, rfl⟩ := h
  rw [addWeekday_date r0]
  cases hiso : parseISO r0.date with
  | some dt =>
    left
    have hwj : (addWeekday r0).weekday_jp = get_japanese_weekday (pyWeekday dt) := by
      unfold addWeekday
      rw [hiso]
    exact ⟨dt, rfl, hwj,
      by rw [hwj]; exact get_japanese_weekday_mem (pyWeekday_lt dt)⟩
  | none =>
    right
    have hwj : (addWeekday r0).weekday_jp = "不明" := by
      unfold addWeekday
      rw [hiso]
    exact ⟨rfl, hwj⟩

/-- C3 witness: the characterization instantiated on a concrete emitted
record with the valid date 2025-07-14 (a Monday). -/
theorem weekday_jp_characterization_witness :
    (∃ dt, parseISO "2025-07-14" = some dt ∧
        "月" = get_japanese_weekday (pyWeekday dt) ∧
        "月" ∈ ["月", "火", "水", "木", "金", "土", "日"]) ∨
      (parseISO "2025-07-14" = none ∧ "月" = "不明") :=
  weekday_jp_characterization.1 2025 7
    [[["日付", "始発〜終電"], ["7月14日", "10分"]]]
    ⟨⟨"2025-07-14", "始発〜終電", "10分", 10, true⟩, "Monday", "月"⟩
    (by decide)

/-- C4: whenever the month-day pattern matches with month `m` and day
`d`, the date normalizer uses the previous year exactly when
`m > currentMonth`; with "now" fixed at 2025-07, `7月3日` yields
`2025-07-03` and `12月25日` yields `2024-12-25`. -/
theorem year_inference : ∀ (cy cm : Nat) (s : String) (m d : Nat),
    searchMonthDay s.data = some (m, d) →
    parse_date cy cm s =
        some (formatYMD (if m > cm then cy - 1 else cy) m d) ∧
      parse_date 2025 7 "7月3日" = some "2025-07-03" ∧
      parse_date 2025 7 "12月25日" = some "2024-12-25" := by
  intro cy cm s m d h
  refine ⟨?_, by decide, by decide⟩
  unfold parse_date
  rw [h]
  rfl

/-- C4 witness: the year-inference rule at the concrete input
`12月25日` (prior-year inference because 12 > 7). -/
theorem year_inference_witness :
    parse_date 2025 7 "12月25日" =
        some (formatYMD (if 12 > 7 then 2025 - 1 else 2025) 12 25) ∧
      parse_date 2025 7 "7月3日" = some "2025-07-03" ∧
      parse_date 2025 7 "12月25日" = some "2024-12-25" :=
  year_inference 2025 7 "12月25日" 12 25 (by decide)

/-- C5 (counterexample): the pattern `(\d{1,2})月(\d{1,2})日` imposes no
1-12 / 1-31 range restriction: `13月5日` is parsed to the date string
`2024-13-05` instead of signalling "not parseable" as the claim
states. -/
theorem month_range_counterexample :
    parse_date 2025 7 "13月5日" = some "2024-13-05" := by
  decide

/-- C5 (amended): the pattern match extracts a month and a day of at
most two digits each (any value up to 99, with no range check and no
calendar-validity check: `2月30日` and `13月5日` are both accepted);
the normalizer signals "not parseable" exactly when the
digits-`月`-digits-`日` pattern is absent. -/
theorem month_day_two_digits :
    (∀ (cy cm : Nat) (s : String) (m d : Nat),
        searchMonthDay s.data = some (m, d) →
        m ≤ 99 ∧ d ≤ 99 ∧ parse_date cy cm s ≠ none) ∧
      (∀ (cy cm : Nat) (s : String),
        searchMonthDay s.data = none → parse_date cy cm s = none) ∧
      parse_date 2025 7 "2月30日" = some "2025-02-30" ∧
      parse_date 2025 7 "13月5日" = some "2024-13-05" := by
  refine ⟨?_, ?_, by decide, by decide⟩
  · intro cy cm s m d h
    obtain ⟨hm, hd⟩ := searchMonthDay_le h
    refine ⟨hm, hd, ?_⟩
    unfold parse_date
    rw [h]
    simp
  · intro cy cm s h
    unfold parse_date
    rw [h]
    rfl

/-- C5 witness: the amended statement at the concrete input `13月5日`. -/
theorem month_day_two_digits_witness :
    13 ≤ 99 ∧ 5 ≤ 99 ∧ parse_date 2025 7 "13月5日" ≠ none :=
  month_day_two_digits.1 2025 7 "13月5日" 13 5 (by decide)

/-- C6: any text containing `61分以上` or `60分以上` is interpreted as
the sentinel `(61, true)`, regardless of any other numeric pattern in
the text (the marker test precedes the generic numeric extraction in
the priority chain). -/
theorem sentinel_61 : ∀ s : String,
    containsSub "61分以上".data s.data = true ∨
      containsSub "60分以上".data s.data = true →
    interpretDelayCell s = (61, true) := by
  intro s h
  obtain ⟨l⟩ := s
  have h6 : ('6' : Char) ∈ l := by
    rcases h with h | h
    · exact mem_of_containsSub h (by decide)
    · exact mem_of_containsSub h (by decide)
  have hb1 : l.isEmpty = false := by
    cases l with
    | nil => cases h6
    | cons a t => rfl
  have hb2 : (String.mk l == "-") = false := by
    rw [beq_eq_false_iff_ne]
    intro hEq
    have hl : l = ['-'] := congrArg String.data hEq
    rw [hl] at h6
    simp at h6
  have hb3 : l.all isPySpace = false := by
    by_contra hno
    have hall : l.all isPySpace = true := by
      revert hno; cases l.all isPySpace <;> simp
    have h2 := List.all_eq_true.mp hall _ h6
    exact absurd (isDigit_eq_false_of_isPySpace h2) (by decide)
  have hx : extract_delay_minutes (String.mk l) = 61 := by
    simp only [extract_delay_minutes, mk_data, hb1, hb2, hb3,
      Bool.or_false, Bool.false_or, Bool.false_eq_true, if_false]
    rcases h with h | h <;> simp [h]
  unfold interpretDelayCell
  rw [hx]
  decide

/-- C6 witness: the sentinel rule at the concrete input `61分以上`. -/
theorem sentinel_61_witness : interpretDelayCell "61分以上" = (61, true) :=
  sentinel_61 "61分以上" (Or.inl (by decide))

/-- C7: the end-to-end scenario — one table with header
`["日付","始発〜7時","7時〜終電"]` and one data row
`["7月3日","-","10分"]`, with "now" fixed at 2025-07 — yields exactly
the two records of the claim, in order. -/
theorem end_to_end_two_records :
    get_delay_history_data 2025 7
        [[["日付", "始発〜7時", "7時〜終電"], ["7月3日", "-", "10分"]]] =
      [{ date := "2025-07-03", time_slot := "始発〜7時", delay_info := "-",
         delay_minutes := 0, has_delay := false },
       { date := "2025-07-03", time_slot := "7時〜終電", delay_info := "10分",
         delay_minutes := 10, has_delay := true }] := by
  decide

/-- C8: a data row whose first cell fails date normalization contributes
zero records, whatever its other cells hold. -/
theorem row_skip_on_bad_date : ∀ (cy cm : Nat) (slots : List String)
    (dateCell : String) (rest : List String),
    parse_date cy cm dateCell = none →
    processRow cy cm slots (dateCell :: rest) = [] := by
  intro cy cm slots dateCell rest h
  simp [processRow, h]

/-- C8 witness: the row-skip rule at a concrete unparseable row. -/
theorem row_skip_on_bad_date_witness :
    processRow 2025 7 ["始発〜7時", "7時〜終電"] ("日付なし" :: ["10分", "20分"]) = [] :=
  row_skip_on_bad_date 2025 7 ["始発〜7時", "7時〜終電"] "日付なし" ["10分", "20分"]
    (by decide)

/-- C9: a table in which no row's concatenated cell text contains both
the first-train marker `始発` and the last-train marker `終電`
contributes zero records. -/
theorem table_skip_without_header : ∀ (cy cm : Nat) (rows : Table),
    (∀ row ∈ rows,
      containsSub "始発".data (String.join row).data = false ∨
        containsSub "終電".data (String.join row).data = false) →
    processTable cy cm rows = [] := by
  intro cy cm rows h
  have hfind : rows.find? isHeaderRow = none := by
    rw [List.find?_eq_none]
    intro row hrow hcon
    unfold isHeaderRow at hcon
    rw [Bool.and_eq_true] at hcon
    rcases h row hrow with h1 | h1
    · rw [h1] at hcon; cases hcon.1
    · rw [h1] at hcon; cases hcon.2
  unfold processTable
  rw [hfind]

/-- C9 witness: the table-skip rule at a concrete header-less table. -/
theorem table_skip_without_header_witness :
    processTable 2025 7 [["7月3日", "10分"], ["7月4日", "-"]] = [] :=
  table_skip_without_header 2025 7 [["7月3日", "10分"], ["7月4日", "-"]]
    (by decide)

/-- C10: when the text decomposes as a junk part (holding no earlier
digits-followed-by-`分` occurrence and not ending in a digit), a digit
run `ds`, the minute unit and a tail, and contains no `61分以上` /
`60分以上` marker, the interpreter returns the value of that leftmost
run — e.g. `10分〜20分` yields 10. -/
theorem leftmost_numeric_match : ∀ pre ds post : List Char,
    ds ≠ [] → (∀ c ∈ ds, c.isDigit = true) →
    searchNumBeforeMin pre = none →
    (∀ c, pre.getLast? = some c → c.isDigit = false) →
    containsSub "61分以上".data (pre ++ (ds ++ '分' :: post)) = false →
    containsSub "60分以上".data (pre ++ (ds ++ '分' :: post)) = false →
    extract_delay_minutes (String.mk (pre ++ (ds ++ '分' :: post))) =
      digitsToNat ds :=
  fun _ _ _ h1 h2 h3 h4 h5 h6 =>
    extract_delay_minutes_of_leftmost h1 h2 h3 h4 h5 h6

/-- C10 witness: the leftmost-match rule on `10分〜20分`, which contains
two numeric occurrences and yields the left one. -/
theorem leftmost_numeric_match_witness :
    extract_delay_minutes (String.mk ([] ++ (['1', '0'] ++ '分' :: "〜20分".data))) =
      digitsToNat ['1', '0'] :=
  leftmost_numeric_match [] ['1', '0'] "〜20分".data (by decide) (by decide) rfl
    (by intro c hc; simp at hc) (by decide) (by decide)

end Yamanote
